import Mathlib

/-!
Verification of the hardware-discovery and memory-management core of the
blaze kernel (calwe/blaze).  Each definition is a shallow embedding of a
function from the kernel source; machine integers are modelled as `Nat`
with explicit wrap-around (`% 2 ^ 64`, `% 256`) where the Rust code can
overflow, and fallible paths (`panic!`, `Option`) are modelled as `Option`.
-/

namespace Blaze

/-! ## Interrupt source bitmap (src/kernel/src/acpi/madt.rs, lines 210-238)

The shared `FREE_INTERRUPT_SOURCES` bitmap is a `u64` where bit = 1 means
the interrupt line is claimed.  We model the bitmap as a `Nat` (kept below
`2 ^ 64` by construction: operations only OR in single bits below 64 or AND). -/

/-- Rust `InterruptSources::set_irq`: `self.0 |= 1 << irq` (madt.rs 225-227). -/
def set_irq (s irq : Nat) : Nat := s ||| (1 <<< irq)

/-- Rust `InterruptSources::clear_irq`: `self.0 &= 0 << irq` (madt.rs 230-232).
Note the source shifts the constant `0`, not `1`. -/
def clear_irq (s irq : Nat) : Nat := s &&& (0 <<< irq)

/-- Rust `InterruptSources::get_irq`: `self.0 & (1 << irq) == 0`, `true`
means the line is free (madt.rs 235-237). -/
def get_irq (s irq : Nat) : Bool := s &&& (1 <<< irq) == 0

/-- Boot-time value of `FREE_INTERRUPT_SOURCES`:
`InterruptSources(1 | 1 << 1 | 1 << 2 | 1 << 8)` (madt.rs 211-213). -/
def free_interrupt_sources_boot : Nat := 1 ||| (1 <<< 1) ||| (1 <<< 2) ||| (1 <<< 8)

/-! ## MADT entry iterator (src/kernel/src/acpi/madt.rs, lines 37-56, 108-125)

`MADTIterator` walks the flat byte buffer `madt.entries`; each yielded item
is a fat pointer to an `MADTEntry` at the current offset whose length is the
byte at `index + 1`.  We model the buffer as a `List Nat` of bytes and an
item as the pair (start offset, length) describing the byte range the
returned `&MADTEntry` covers. -/

/-- One step of `MADTIterator::next` (madt.rs 40-55): if `index + 1 >=
entries.len()` the iteration ends; otherwise the length is read from
`entries[index + 1]`, the item `(index, len)` is yielded, and the index
advances by `len`.  The `getD` default is never used: the guard ensures
`index + 1 < entries.length` at the read. -/
def madt_next (entries : List Nat) (index : Nat) : Option ((Nat × Nat) × Nat) :=
  if index + 1 ≥ entries.length then
    none
  else
    some ((index, entries.getD (index + 1) 0), index + entries.getD (index + 1) 0)

/-- Fuelled iteration of `madt_next`, collecting the yielded items in order.
The Rust iterator has no fuel; the fuel only truncates the (possibly
infinite) stream of items for reasoning. -/
def madt_run (entries : List Nat) : Nat → Nat → List (Nat × Nat)
  | _index, 0 => []
  | index, fuel + 1 =>
    match madt_next entries index with
    | none => []
    | some (item, index2) => item :: madt_run entries index2 fuel

/-- Rust `MADT::from_addr` (madt.rs 110-117): the length of the `entries`
byte buffer is computed as `header.length - size_of::<ACPISDTHeader>() - 8`
(the ACPI SDT header is 36 bytes, the MADT adds two `u32` fields). -/
def madt_entries_len (headerLength : Nat) : Nat := headerLength - 36 - 8

/-- Byte offsets and lengths of the items an `MADTIterator` should yield
for a buffer that is the concatenation of the given entries. -/
def expected_items (start : Nat) : List (List Nat) → List (Nat × Nat)
  | [] => []
  | e :: rest => (start, e.length) :: expected_items (start + e.length) rest

/-- Well-formed MADT entry: at least the type and length bytes are present,
and the length byte — the second byte of the payload — equals the entry's
actual byte length. -/
def wf_entry (e : List Nat) : Prop := 2 ≤ e.length ∧ e.getD 1 0 = e.length

/-! ### Theorems about the interrupt bitmap -/

/-- C9: for every bitmap state `s` and every line `irq`,
`InterruptSources::clear_irq(irq)` zeroes the whole bitmap (because it
ANDs with `0 << irq = 0`), so afterwards `get_irq(j)` reports every line
`j` — including the pre-claimed legacy lines 0, 1, 2 and 8 — as free. -/
theorem clear_irq_zeroes_bitmap (s irq : Nat) :
    clear_irq s irq = 0 ∧ ∀ j : Nat, get_irq (clear_irq s irq) j = true := by
  have hz : clear_irq s irq = 0 := by
    unfold clear_irq
    simp [Nat.zero_shiftLeft]
  refine ⟨hz, fun j => ?_⟩
  rw [hz]
  unfold get_irq
  simp [Nat.zero_and]

/-! ### Theorems about the MADT iterator -/

lemma madt_run_append (ents : List (List Nat)) :
    ∀ (pre : List Nat) (fuel : Nat), (∀ e ∈ ents, wf_entry e) → ents.length ≤ fuel →
      madt_run (pre ++ ents.flatten) pre.length fuel = expected_items pre.length ents := by
  induction ents with
  | nil =>
    intro pre fuel _ _
    cases fuel with
    | zero => simp [madt_run, expected_items]
    | succ n => simp [madt_run, madt_next, expected_items]
  | cons e rest ih =>
    intro pre fuel hwf hfuel
    obtain ⟨f, rfl⟩ : ∃ f, fuel = f + 1 := ⟨fuel - 1, by simp at hfuel; omega⟩
    obtain ⟨hlen2, hbyte⟩ := hwf e (by simp)
    have hrest : ∀ e2 ∈ rest, wf_entry e2 := fun e2 h2 => hwf e2 (by simp [h2])
    have hflat : (e :: rest).flatten = e ++ rest.flatten := List.flatten_cons
    have hlenbuf : (pre ++ (e :: rest).flatten).length
        = pre.length + (e.length + rest.flatten.length) := by
      simp [hflat]
    have hguard : ¬ (pre.length + 1 ≥ (pre ++ (e :: rest).flatten).length) := by
      rw [hlenbuf]; omega
    have hread : (pre ++ (e :: rest).flatten).getD (pre.length + 1) 0 = e.length := by
      rw [List.getD_append_right pre _ 0 (pre.length + 1) (by omega)]
      have h1 : pre.length + 1 - pre.length = 1 := by omega
      rw [h1, hflat, List.getD_append e _ 0 1 (by omega)]
      exact hbyte
    have hnext : madt_next (pre ++ (e :: rest).flatten) pre.length
        = some ((pre.length, e.length), pre.length + e.length) := by
      unfold madt_next
      rw [if_neg hguard, hread]
    have hbufeq : pre ++ (e :: rest).flatten = (pre ++ e) ++ rest.flatten := by
      rw [hflat, List.append_assoc]
    have hidx : pre.length + e.length = (pre ++ e).length := by simp
    simp only [madt_run, hnext, expected_items]
    rw [hbufeq, hidx]
    exact congrArg _ (ih (pre ++ e) f hrest (by simp at hfuel; omega))

lemma expected_items_bounded (ents : List (List Nat)) :
    ∀ pre : Nat, (∀ e ∈ ents, wf_entry e) →
      ∀ item ∈ expected_items pre ents,
        item.1 + item.2 ≤ pre + ents.flatten.length ∧
        item.1 + 1 < pre + ents.flatten.length := by
  induction ents with
  | nil => intro pre _ item hmem; simp [expected_items] at hmem
  | cons e rest ih =>
    intro pre hwf item hmem
    obtain ⟨hlen2, _⟩ := hwf e (by simp)
    have hrest : ∀ e2 ∈ rest, wf_entry e2 := fun e2 h2 => hwf e2 (by simp [h2])
    have hflatlen : (e :: rest).flatten.length = e.length + rest.flatten.length := by
      simp [List.flatten_cons]
    simp only [expected_items, List.mem_cons] at hmem
    rw [hflatlen]
    rcases hmem with h | h
    · subst h
      exact ⟨by omega, by omega⟩
    · have hb := ih (pre + e.length) hrest item h
      exact ⟨by omega, by omega⟩

/-- C3: for an interrupt-controller (MADT) entry buffer that is the
concatenation of N well-formed variable-length entries (each entry is at
least two bytes and its length byte — the second byte of its payload —
equals its actual length), `MADTIterator` yields exactly those N items in
order — entry i at the offset where entry i starts, with entry i's length —
and every yielded byte range, as well as every position the iterator reads
a length byte from, stays strictly within the declared end of the buffer.
This holds for every N, including 0, 1 and 16. -/
theorem madt_iterator_yields_entries (ents : List (List Nat))
    (hwf : ∀ e ∈ ents, wf_entry e) :
    (∀ fuel, ents.length ≤ fuel →
      madt_run ents.flatten 0 fuel = expected_items 0 ents) ∧
    (∀ item ∈ expected_items 0 ents,
      item.1 + item.2 ≤ ents.flatten.length ∧ item.1 + 1 < ents.flatten.length) := by
  constructor
  · intro fuel hfuel
    have h := madt_run_append ents [] fuel hwf hfuel
    simpa using h
  · intro item hmem
    have h := expected_items_bounded ents 0 hwf item hmem
    simpa using h

/-- Witness for C3: a one-entry buffer (type byte 0, length byte 2) is
iterated to exactly one item covering the whole buffer. -/
theorem madt_iterator_yields_entries_witness :
    madt_run [0, 2] 0 5 = expected_items 0 [[0, 2]] := by
  have h : ∀ e ∈ [[(0 : Nat), 2]], wf_entry e := by
    intro e he
    simp only [List.mem_singleton] at he
    subst he
    simp only [wf_entry]
    exact ⟨by decide, rfl⟩
  exact (madt_iterator_yields_entries [[0, 2]] h).1 5 (by decide)

/-- C10: if the byte at `index + 1` (the length byte of the entry at the
iterator's current position) is 0 while at least two bytes remain before
the declared end, `MADTIterator::next` yields an item without advancing the
index, so iteration yields that same entry on every subsequent call and
never terminates: for every fuel bound the run is a constant repetition of
that one item. -/
theorem madt_zero_length_entry_loops (entries : List Nat) (index : Nat)
    (hin : index + 1 < entries.length) (hzero : entries.getD (index + 1) 0 = 0) :
    madt_next entries index = some ((index, 0), index) ∧
    ∀ fuel, madt_run entries index fuel = List.replicate fuel (index, 0) := by
  have hnext : madt_next entries index = some ((index, 0), index) := by
    unfold madt_next
    rw [if_neg (by omega), hzero]
    simp
  refine ⟨hnext, ?_⟩
  intro fuel
  induction fuel with
  | zero => rfl
  | succ n ih =>
    simp only [madt_run, hnext, List.replicate_succ]
    rw [ih]

/-- Witness for C10: on the concrete buffer `[5, 0, 7]` (entry of declared
length 0 at offset 0) the iterator yields the same item forever. -/
theorem madt_zero_length_entry_loops_witness :
    madt_run [5, 0, 7] 0 4 = List.replicate 4 (0, 0) :=
  (madt_zero_length_entry_loops [5, 0, 7] 0 (by decide) (by decide)).2 4

/-! ## Firmware table checksums and RSDT parsing
(src/kernel/src/acpi/rsdp.rs 35-41, src/kernel/src/acpi/rsdt.rs 42-46)

`RSDPDescriptor::checksum` is the only checksum validation in the firmware
table reader: it sums the 20 bytes of the v1 descriptor with `u8`
wrap-around and accepts when the sum is 0.  `RSDT::from_addr` reads the
header's 32-bit little-endian `length` field and builds the table fat
pointer with `(length - 36) / 4` entries; it has no checksum check and no
failure path at all. -/

/-- Rust `RSDPDescriptor::checksum` (rsdp.rs 35-41): wrapping `u8` sum of
the 20 descriptor bytes, accepted iff the sum is zero.  The descriptor is
modelled as the list of its 20 bytes; the `getD` default is unused when
the list has length 20. -/
def rsdp_checksum (bytes : List Nat) : Bool :=
  (List.range 20).foldl (fun sum i => (sum + bytes.getD i 0) % 256) 0 == 0

/-- Little-endian 32-bit `length` field of an `ACPISDTHeader`, at byte
offset 4 of the table (rsdt.rs 13-24). -/
def header_length (bytes : List Nat) : Nat :=
  bytes.getD 4 0 + 256 * bytes.getD 5 0 + 256 ^ 2 * bytes.getD 6 0 + 256 ^ 3 * bytes.getD 7 0

/-- Rust `RSDT::from_addr` (rsdt.rs 42-46): computes the entry count
`(header.length - size_of::<ACPISDTHeader>()) / 4` (the header is 36
bytes) and unconditionally returns the table pointer — there is no
checksum validation and no failure path.  The result models the entry
count of the returned fat pointer. -/
def rsdt_from_addr (bytes : List Nat) : Nat :=
  (header_length bytes - 36) / 4

/-- Concrete RSDT image: signature `RSDT`, declared length 40, all other
bytes zero.  Its byte sum is 357, i.e. 101 mod 256 — a nonzero checksum. -/
def rsdt_bad_checksum_table : List Nat :=
  [82, 83, 68, 84, 40, 0, 0, 0] ++ List.replicate 32 0

/-! ### Theorems about checksum validation -/

lemma range_map_getD (l : List Nat) :
    (List.range l.length).map (fun i => l.getD i 0) = l := by
  induction l with
  | nil => simp
  | cons x t ih =>
    rw [List.length_cons, List.range_succ_eq_map]
    simp only [List.map_cons, List.map_map, Function.comp_def, List.getD_cons_zero,
      Nat.succ_eq_add_one, List.getD_cons_succ]
    rw [ih]

lemma foldl_mod_sum (l : List Nat) :
    ∀ a : Nat, l.foldl (fun s b => (s + b) % 256) (a % 256) = (a + l.sum) % 256 := by
  induction l with
  | nil => intro a; simp
  | cons x t ih =>
    intro a
    simp only [List.foldl_cons, List.sum_cons]
    rw [Nat.mod_add_mod]
    rw [ih (a + x)]
    ring_nf

lemma sum_set_add (l : List Nat) :
    ∀ (i b : Nat), i < l.length → (l.set i b).sum + l.getD i 0 = l.sum + b := by
  induction l with
  | nil => intro i b h; simp at h
  | cons x t ih =>
    intro i b h
    cases i with
    | zero => simp [List.sum_cons]; omega
    | succ n =>
      simp only [List.set_cons_succ, List.sum_cons, List.getD_cons_succ]
      have := ih n b (by simp at h; omega)
      omega

lemma rsdp_checksum_iff (bytes : List Nat) (h20 : bytes.length = 20) :
    rsdp_checksum bytes = true ↔ bytes.sum % 256 = 0 := by
  unfold rsdp_checksum
  rw [beq_iff_eq]
  have hmap : (List.range 20).foldl (fun sum i => (sum + bytes.getD i 0) % 256) 0
      = ((List.range 20).map (fun i => bytes.getD i 0)).foldl (fun s b => (s + b) % 256) 0 := by
    rw [List.foldl_map]
  rw [hmap, ← h20, range_map_getD]
  have h0 : (0 : Nat) = 0 % 256 := rfl
  rw [h0, foldl_mod_sum bytes 0, Nat.zero_add]

/-- C2 counterexample: `RSDT::from_addr` performs no checksum validation —
on a concrete table whose bytes sum to 101 mod 256 (nonzero) it still
"accepts" the table, returning a one-entry table pointer, refuting the
claim that a table is accepted only if its declared-length byte sum is
zero mod 256. -/
theorem rsdt_from_addr_ignores_checksum :
    rsdt_from_addr rsdt_bad_checksum_table = 1 ∧
    rsdt_bad_checksum_table.sum % 256 ≠ 0 := by
  constructor
  · decide
  · decide

/-- C2 (amended): the firmware table reader's only checksum validation is
`RSDPDescriptor::checksum`, which sums the 20 bytes of the v1 descriptor
modulo 256 and accepts exactly when the sum is zero; for any descriptor it
accepts, changing any single byte to a different byte value makes it
reject.  (`RSDT::from_addr` computes the entry-array length from
`header.length - 36` but validates no checksum.) -/
theorem rsdp_checksum_detects_corruption (bytes : List Nat)
    (h20 : bytes.length = 20) (hb : ∀ x ∈ bytes, x < 256) :
    (rsdp_checksum bytes = true ↔ bytes.sum % 256 = 0) ∧
    (rsdp_checksum bytes = true →
      ∀ i < 20, ∀ b2 < 256, b2 ≠ bytes.getD i 0 →
        rsdp_checksum (bytes.set i b2) = false) := by
  refine ⟨rsdp_checksum_iff bytes h20, ?_⟩
  intro hok i hi b2 hb2 hne
  have hilen : i < bytes.length := by omega
  have hold : bytes.getD i 0 = bytes[i] := List.getD_eq_getElem bytes 0 hilen
  have holdlt : bytes.getD i 0 < 256 := by
    rw [hold]; exact hb _ (List.getElem_mem hilen)
  have hsum : bytes.sum % 256 = 0 := (rsdp_checksum_iff bytes h20).mp hok
  by_contra hcon
  have htrue : rsdp_checksum (bytes.set i b2) = true := by
    cases hv : rsdp_checksum (bytes.set i b2) with
    | false => exact absurd hv hcon
    | true => rfl
  have hlen2 : (bytes.set i b2).length = 20 := by rw [List.length_set]; exact h20
  have hsum2 : (bytes.set i b2).sum % 256 = 0 :=
    (rsdp_checksum_iff (bytes.set i b2) hlen2).mp htrue
  have hset : (bytes.set i b2).sum + bytes.getD i 0 = bytes.sum + b2 :=
    sum_set_add bytes i b2 hilen
  have hmod : (bytes.getD i 0) % 256 = b2 % 256 := by
    have h1 : ((bytes.set i b2).sum + bytes.getD i 0) % 256 = (bytes.sum + b2) % 256 := by
      rw [hset]
    rw [Nat.add_mod, hsum2, Nat.add_mod bytes.sum, hsum] at h1
    simpa using h1
  have : bytes.getD i 0 = b2 := by
    rw [Nat.mod_eq_of_lt holdlt, Nat.mod_eq_of_lt hb2] at hmod
    exact hmod
  exact hne this.symm

/-- Witness for the amended C2: a concrete valid RSDP descriptor (byte sum
768 = 0 mod 256) is accepted, and corrupting its first byte to 0 is
rejected. -/
theorem rsdp_checksum_detects_corruption_witness :
    rsdp_checksum
      [82, 83, 68, 32, 80, 84, 82, 32, 225, 0, 0, 0, 0, 0, 0, 0, 0, 0, 0, 0] = true ∧
    rsdp_checksum
      ([82, 83, 68, 32, 80, 84, 82, 32, 225, 0, 0, 0, 0, 0, 0, 0, 0, 0, 0, 0].set 0 0) = false := by
  have h := rsdp_checksum_detects_corruption
    [82, 83, 68, 32, 80, 84, 82, 32, 225, 0, 0, 0, 0, 0, 0, 0, 0, 0, 0, 0]
    (by decide) (by decide)
  exact ⟨h.1.mpr (by decide), h.2 (h.1.mpr (by decide)) 0 (by decide) 0 (by decide) (by decide)⟩

/-! ## HPET timer driver (src/kernel/src/acpi/hpet.rs)

The HPET register block is modelled as a state holding the two general
read-only registers the code reads (general capabilities, main counter),
the per-timer configuration and comparator registers, and a log of the
64-bit register writes (byte offset, value) in program order.  All
registers are 64-bit, modelled as `Nat` below `2 ^ 64`. -/

structure HPETState where
  general_capabilities : Nat
  main_counter : Nat
  timer_config : Nat → Nat
  timer_comparator : Nat → Nat
  write_log : List (Nat × Nat)

/-- Bits 63..32 of the general-capabilities register: the
`counter_clk_period` bitfield (hpet.rs 268), the counter period in
femtoseconds. -/
def counter_clk_period (cap : Nat) : Nat := (cap >>> 32) % 2 ^ 32

/-- Byte offset of timer n's configuration register: `0x100 + n * 0x20`
(hpet.rs 190-202). -/
def timer_config_offset (n : Nat) : Nat := 0x100 + n * 0x20

/-- Byte offset of timer n's comparator register: `0x108 + n * 0x20`
(hpet.rs 204-222). -/
def timer_comparator_offset (n : Nat) : Nat := 0x108 + n * 0x20

/-- Rust `HPET::write_n_config` (hpet.rs 197-202), also recording the
write in the log. -/
def write_n_config (s : HPETState) (n v : Nat) : HPETState :=
  { s with timer_config := fun m => if m = n then v else s.timer_config m,
           write_log := s.write_log ++ [(timer_config_offset n, v)] }

/-- Rust `HPET::write_n_comparator` (hpet.rs 212-222), also recording the
write in the log. -/
def write_n_comparator (s : HPETState) (n v : Nat) : HPETState :=
  { s with timer_comparator := fun m => if m = n then v else s.timer_comparator m,
           write_log := s.write_log ++ [(timer_comparator_offset n, v)] }

/-- Single-bit store of the `bitfield!` crate:
`v = (v & !(1 << i)) | ((b as u64) << i)`. -/
def set_single_bit (v i : Nat) (b : Bool) : Nat :=
  (v &&& ((2 ^ 64 - 1) ^^^ (1 <<< i))) ||| ((if b then 1 else 0) <<< i)

/-- Rust `HPET::disable_n_timer` (hpet.rs 164-168): read timer n's
configuration, clear `init_enb_cnf` (bit 2), write it back. -/
def disable_n_timer (s : HPETState) (n : Nat) : HPETState :=
  write_n_config s n (set_single_bit (s.timer_config n) 2 false)

/-- Rust `HPET::enable_n_timer` (hpet.rs 170-174): read timer n's
configuration, set `init_enb_cnf` (bit 2), write it back. -/
def enable_n_timer (s : HPETState) (n : Nat) : HPETState :=
  write_n_config s n (set_single_bit (s.timer_config n) 2 true)

/-- Tick computation of `HPET::one_shot` (hpet.rs 118-122):
`frequency = 10^15 / clk_period` then
`ticks = time_in_us * frequency / 1_000_000`, with the `u64`
multiplication wrapping modulo `2 ^ 64`. -/
def one_shot_ticks (clk_period time_in_us : Nat) : Nat :=
  time_in_us * (10 ^ 15 / clk_period) % 2 ^ 64 / 1000000

/-- Rust `HPET::one_shot` (hpet.rs 116-128): compute the tick count from
the capability register's clock period, then disable timer 0, write
comparator 0 = current counter + ticks (wrapping `u64` addition), and
re-enable timer 0. -/
def one_shot (s : HPETState) (time_in_us : Nat) : HPETState :=
  let time_in_ticks := one_shot_ticks (counter_clk_period s.general_capabilities) time_in_us
  let s1 := disable_n_timer s 0
  let s2 := write_n_comparator s1 0 ((s.main_counter + time_in_ticks) % 2 ^ 64)
  enable_n_timer s2 0

/-! ### Timer interrupt-line assignment (hpet.rs 225-255)

`HPET::assign_timer_irq` builds the candidate list from bits 0..31 of the
timer's `int_route_cap` bitfield, in ascending order, then scans it and
claims the first free line in `FREE_INTERRUPT_SOURCES`.  The final
`int_route_cnf` register write does not touch the bitmap and is omitted
from the model; the `panic!` on exhaustion is modelled as `none`. -/

/-- Bits 63..32 of a timer configuration register: the `int_route_cap`
bitfield (hpet.rs 291). -/
def int_route_cap (config : Nat) : Nat := (config >>> 32) % 2 ^ 32

/-- Rust `TimerNConfiguration::int_valid` (hpet.rs 295-297). -/
def int_valid (config n : Nat) : Bool := int_route_cap config &&& (1 <<< n) != 0

/-- The ascending candidate list `valid_irqs` built by `assign_timer_irq`
(hpet.rs 229-234): every i in 0..32 with `int_valid(i)`. -/
def valid_irqs (config : Nat) : List Nat :=
  (List.range 32).filter (fun i => int_valid config i)

/-- The scan loop of `assign_timer_irq` (hpet.rs 237-244): walk the
candidates in order; at the first free line, set its bit and stop.
Returns the chosen line and the updated bitmap, or `none` when no
candidate is free (the Rust code panics there, hpet.rs 253). -/
def alloc_scan (bitmap : Nat) : List Nat → Option (Nat × Nat)
  | [] => none
  | c :: rest =>
    if get_irq bitmap c then some (c, set_irq bitmap c) else alloc_scan bitmap rest

/-- Rust `HPET::assign_timer_irq` (hpet.rs 225-255) restricted to its
effect on the interrupt bitmap: scan the timer's candidate lines and
claim the first free one. -/
def assign_timer_irq (bitmap config : Nat) : Option (Nat × Nat) :=
  alloc_scan bitmap (valid_irqs config)

/-- Run a sequence of `assign_timer_irq` calls (one per timer
configuration value) against the shared bitmap, threading the bitmap
through and collecting each call's outcome. -/
def run_assigns (bitmap : Nat) : List Nat → List (Option Nat) × Nat
  | [] => ([], bitmap)
  | config :: rest =>
    match assign_timer_irq bitmap config with
    | none =>
      ((run_assigns bitmap rest).1.cons none, (run_assigns bitmap rest).2)
    | some (irq, bitmap2) =>
      ((run_assigns bitmap2 rest).1.cons (some irq), (run_assigns bitmap2 rest).2)

/-! ### Theorems about one_shot -/

lemma set_single_bit_false_testBit (v : Nat) :
    (set_single_bit v 2 false).testBit 2 = false := by
  unfold set_single_bit
  have h1 : Nat.testBit 18446744073709551611 2 = false := by decide
  simp [Nat.testBit_or, Nat.testBit_and, h1]

lemma set_single_bit_true_testBit (v : Nat) :
    (set_single_bit v 2 true).testBit 2 = true := by
  unfold set_single_bit
  have h1 : Nat.testBit 4 2 = true := by decide
  simp [Nat.testBit_or, h1]

/-- C4 counterexample: with a clock period of 10,000,000 femtoseconds a
one-shot request of 1,000 microseconds computes a tick delta of 100,000 —
not the 10,000 the claim states. -/
theorem one_shot_tick_delta_is_100000 :
    one_shot_ticks 10000000 1000 = 100000 ∧ one_shot_ticks 10000000 1000 ≠ 10000 := by
  constructor
  · decide
  · decide

/-- C4 (amended): `one_shot(duration_us)` computes
`ticks = duration_us * (10^15 / clk_period_fs) / 10^6`; it disables
timer 0 (bit 2 of its configuration cleared), writes comparator 0 =
current counter + ticks, then re-enables timer 0 (bit 2 set), in exactly
that order of register writes; with clock period 10,000,000 femtoseconds a
request of 1,000 microseconds yields a computed tick delta of 100,000. -/
theorem one_shot_spec (s : HPETState) (t : Nat)
    (_hper : counter_clk_period s.general_capabilities ≠ 0) :
    (one_shot s t).timer_comparator 0
      = (s.main_counter + one_shot_ticks (counter_clk_period s.general_capabilities) t) % 2 ^ 64 ∧
    (one_shot s t).write_log = s.write_log ++
      [(timer_config_offset 0, set_single_bit (s.timer_config 0) 2 false),
       (timer_comparator_offset 0,
         (s.main_counter + one_shot_ticks (counter_clk_period s.general_capabilities) t) % 2 ^ 64),
       (timer_config_offset 0,
         set_single_bit (set_single_bit (s.timer_config 0) 2 false) 2 true)] ∧
    ((one_shot s t).timer_config 0).testBit 2 = true ∧
    (set_single_bit (s.timer_config 0) 2 false).testBit 2 = false ∧
    one_shot_ticks 10000000 1000 = 100000 := by
  refine ⟨?_, ?_, ?_, set_single_bit_false_testBit _, by decide⟩
  · simp [one_shot, enable_n_timer, disable_n_timer, write_n_config, write_n_comparator]
  · simp [one_shot, enable_n_timer, disable_n_timer, write_n_config, write_n_comparator]
  · simp only [one_shot, enable_n_timer, disable_n_timer, write_n_config, write_n_comparator]
    simp [set_single_bit_true_testBit]

/-- Witness for the amended C4: a concrete HPET state with clock period
10,000,000 femtoseconds and main counter 5; the one-shot comparator write
is 5 + 100,000. -/
theorem one_shot_spec_witness :
    (one_shot ⟨10000000 * 2 ^ 32, 5, fun _ => 0, fun _ => 0, []⟩ 1000).timer_comparator 0
      = 100005 := by
  have h := one_shot_spec ⟨10000000 * 2 ^ 32, 5, fun _ => 0, fun _ => 0, []⟩ 1000 (by decide)
  rw [h.1]
  decide

/-! ## Lock acquisition order (src/kernel/src/memory/allocator.rs)

`allocate_of_size` (lines 38-72) and `map_phys_to_virt` (lines 75-97) are
the operations that take both the global `MAPPER` and `FRAME_ALLOCATOR`
spin-locks.  In both, the source first executes `MAPPER.lock()` and then
`FRAME_ALLOCATOR.lock()`; the lists below record those acquisition
sequences in program order. -/

inductive KernelLock where
  | frameAllocator
  | mapper
deriving DecidableEq

/-- Lock-acquisition sequence of `allocate_of_size` (allocator.rs 44-47):
`MAPPER.lock()` on line 44, then `FRAME_ALLOCATOR.lock()` on line 46. -/
def allocate_of_size_locks : List KernelLock :=
  [KernelLock.mapper, KernelLock.frameAllocator]

/-- Lock-acquisition sequence of `map_phys_to_virt` (allocator.rs 81-84):
`MAPPER.lock()` on line 81, then `FRAME_ALLOCATOR.lock()` on line 83. -/
def map_phys_to_virt_locks : List KernelLock :=
  [KernelLock.mapper, KernelLock.frameAllocator]

/-- Lock a is acquired before lock b in the given acquisition sequence. -/
def acquired_before (a b : KernelLock) (tr : List KernelLock) : Prop :=
  tr.indexOf a < tr.indexOf b

/-- C5 counterexample: in neither `allocate_of_size` nor
`map_phys_to_virt` is the frame-allocator lock acquired before the mapper
lock — both acquire the mapper lock first, refuting the claimed order. -/
theorem frame_allocator_lock_not_first :
    ¬ acquired_before KernelLock.frameAllocator KernelLock.mapper allocate_of_size_locks ∧
    ¬ acquired_before KernelLock.frameAllocator KernelLock.mapper map_phys_to_virt_locks := by
  constructor
  · unfold acquired_before allocate_of_size_locks
    decide
  · unfold acquired_before map_phys_to_virt_locks
    decide

/-- C5 (amended): in every operation that takes both the frame-allocator
lock and the mapper lock (`allocate_of_size` and `map_phys_to_virt`), the
mapper lock is acquired before the frame-allocator lock, never the
reverse — the fixed order is mapper first. -/
theorem mapper_lock_acquired_first :
    acquired_before KernelLock.mapper KernelLock.frameAllocator allocate_of_size_locks ∧
    acquired_before KernelLock.mapper KernelLock.frameAllocator map_phys_to_virt_locks := by
  constructor
  · unfold acquired_before allocate_of_size_locks
    decide
  · unfold acquired_before map_phys_to_virt_locks
    decide

/-! ## Heap bump allocator (src/kernel/src/memory/bump_alloc.rs,
src/kernel/src/memory/allocator.rs 99-103)

Addresses and sizes are `usize` (64-bit); arithmetic wraps modulo
`2 ^ 64` where the Rust release build wraps, and `checked_add` models the
explicit overflow check in `alloc`. -/

structure BumpAllocator where
  heap_start : Nat
  heap_end : Nat
  next : Nat
  allocations : Nat
deriving DecidableEq

/-- Rust `BumpAllocator::new` (bump_alloc.rs 25-32). -/
def BumpAllocator.new : BumpAllocator := ⟨0, 0, 0, 0⟩

/-- Rust `BumpAllocator::init` (bump_alloc.rs 35-39). -/
def BumpAllocator.init (a : BumpAllocator) (heap_start heap_size : Nat) : BumpAllocator :=
  { a with heap_start := heap_start, heap_end := heap_start + heap_size, next := heap_start }

/-- Rust `align_up` (allocator.rs 101-103): `(addr + align - 1) & !(align - 1)`
on `u64`, the sum wrapping modulo `2 ^ 64` and `!` being the 64-bit
complement. -/
def align_up (addr align : Nat) : Nat :=
  ((addr + align - 1) % 2 ^ 64) &&& ((2 ^ 64 - 1) ^^^ (align - 1))

/-- Rust `usize::checked_add`: `none` when the sum does not fit in 64 bits. -/
def checked_add (x y : Nat) : Option Nat :=
  if x + y < 2 ^ 64 then some (x + y) else none

/-- Rust `GlobalAlloc::alloc` for the bump allocator (bump_alloc.rs
43-59): round the cursor up to the alignment, `checked_add` the size
(null on overflow), fail with null if the block end exceeds `heap_end`,
otherwise advance the cursor, bump the live count and return the block
start. -/
def BumpAllocator.alloc (a : BumpAllocator) (size align : Nat) : Option Nat × BumpAllocator :=
  match checked_add (align_up a.next align) size with
  | none => (none, a)
  | some alloc_end =>
    if alloc_end > a.heap_end then (none, a)
    else (some (align_up a.next align),
          { a with next := alloc_end, allocations := a.allocations + 1 })

/-- Rust `GlobalAlloc::dealloc` for the bump allocator (bump_alloc.rs
61-68): decrement the live count; when it reaches zero, reset the cursor
to the heap start.  (The Rust decrement would panic on underflow; the
claims only exercise balanced deallocations.) -/
def BumpAllocator.dealloc (a : BumpAllocator) : BumpAllocator :=
  if a.allocations - 1 = 0 then
    { a with allocations := a.allocations - 1, next := a.heap_start }
  else
    { a with allocations := a.allocations - 1 }

/-- Kernel heap start `HEAP_START` (allocator.rs 20). -/
def HEAP_START : Nat := 0xffffffffdead0000

/-- Kernel heap size `HEAP_SIZE` = 100 KiB (allocator.rs 22). -/
def HEAP_SIZE : Nat := 100 * 1024

/-- Freshly initialised kernel heap, as `init_heap` builds it
(allocator.rs 29-35). -/
def bump_demo_0 : BumpAllocator := BumpAllocator.new.init HEAP_START HEAP_SIZE

/-- State and result after the first demo allocation `allocate(16, 8)`. -/
def bump_demo_1 : Option Nat × BumpAllocator := bump_demo_0.alloc 16 8

/-- State and result after the second demo allocation `allocate(32, 16)`. -/
def bump_demo_2 : Option Nat × BumpAllocator := bump_demo_1.2.alloc 32 16

/-- State after both demo allocations are deallocated. -/
def bump_demo_3 : BumpAllocator := bump_demo_2.2.dealloc.dealloc

/-! ### Theorems about the bump allocator -/

/-- C7: on a freshly initialised kernel heap, `allocate(16, 8)` then
`allocate(32, 16)` return strictly increasing addresses, each satisfying
its alignment and lying (with its whole block) within
`[heap_start, heap_end)`; after both are deallocated the live count is
back to 0 and the cursor is reset, so the next allocation returns the
heap start again. -/
theorem bump_heap_round_trip :
    bump_demo_1.1 = some HEAP_START ∧
    bump_demo_2.1 = some (HEAP_START + 16) ∧
    HEAP_START < HEAP_START + 16 ∧
    HEAP_START % 8 = 0 ∧
    (HEAP_START + 16) % 16 = 0 ∧
    bump_demo_0.heap_start ≤ HEAP_START ∧
    HEAP_START + 16 ≤ bump_demo_0.heap_end ∧
    HEAP_START + 16 + 32 ≤ bump_demo_0.heap_end ∧
    bump_demo_3.allocations = 0 ∧
    bump_demo_3.next = HEAP_START ∧
    (bump_demo_3.alloc 16 8).1 = some HEAP_START := by
  decide

/-- C8: `alloc(size, align)` fails (returns the null indicator) exactly
when the cursor rounded up to `align`, plus `size`, exceeds the heap end
or the addition overflows 64 bits; on failure the allocator state is
unchanged, and on success the returned address is the rounded-up cursor,
the cursor advances to the end of the returned block, and the live count
increases by one (heap bounds unchanged). -/
theorem bump_alloc_failure_iff (a : BumpAllocator) (size align : Nat) :
    ((a.alloc size align).1 = none ↔
      a.heap_end < align_up a.next align + size ∨
      2 ^ 64 ≤ align_up a.next align + size) ∧
    ((a.alloc size align).1 = none → (a.alloc size align).2 = a) ∧
    (∀ addr, (a.alloc size align).1 = some addr →
      addr = align_up a.next align ∧
      (a.alloc size align).2.next = addr + size ∧
      (a.alloc size align).2.allocations = a.allocations + 1 ∧
      (a.alloc size align).2.heap_start = a.heap_start ∧
      (a.alloc size align).2.heap_end = a.heap_end) := by
  by_cases hov : align_up a.next align + size < 2 ^ 64
  · by_cases hend : align_up a.next align + size > a.heap_end
    · have heq : a.alloc size align = (none, a) := by
        unfold BumpAllocator.alloc checked_add
        simp only [if_pos hov, if_pos hend]
      rw [heq]
      refine ⟨⟨fun _ => Or.inl hend, fun _ => rfl⟩, fun _ => rfl, ?_⟩
      intro addr h
      simp at h
    · have heq : a.alloc size align = (some (align_up a.next align),
          { a with next := align_up a.next align + size,
                   allocations := a.allocations + 1 }) := by
        unfold BumpAllocator.alloc checked_add
        simp only [if_pos hov, if_neg hend]
      rw [heq]
      refine ⟨⟨fun h => by simp at h, fun hcond => ?_⟩, fun h => by simp at h, ?_⟩
      · exfalso
        rcases hcond with h | h <;> omega
      · intro addr h
        have haddr : align_up a.next align = addr := by simpa using h
        subst haddr
        exact ⟨rfl, rfl, rfl, rfl, rfl⟩
  · have heq : a.alloc size align = (none, a) := by
      unfold BumpAllocator.alloc checked_add
      simp only [if_neg hov]
    rw [heq]
    refine ⟨⟨fun _ => Or.inr (by omega), fun _ => rfl⟩, fun _ => rfl, ?_⟩
    intro addr h
    simp at h

/-- Witness for C8: on a heap `[0, 100)` with cursor 0, requesting 200
bytes fails, and requesting 10 bytes succeeds bumping the live count. -/
theorem bump_alloc_failure_iff_witness :
    ((⟨0, 100, 0, 0⟩ : BumpAllocator).alloc 200 1).1 = none ∧
    ((⟨0, 100, 0, 0⟩ : BumpAllocator).alloc 10 1).2.allocations = 0 + 1 := by
  refine ⟨(bump_alloc_failure_iff ⟨0, 100, 0, 0⟩ 200 1).1.mpr (by decide), ?_⟩
  exact ((bump_alloc_failure_iff ⟨0, 100, 0, 0⟩ 10 1).2.2 (align_up 0 1) (by decide)).2.2.1

/-! ## Physical frame allocator (src/kernel/src/memory/memory.rs 63-97)

`BootInfoFrameAllocator` filters the boot memory map down to usable
regions, steps each region's address range by 4096 and aligns each
address down to its frame start; `allocate_frame` returns the `next`-th
element of that fixed sequence and always increments the cursor. -/

structure MemRegion where
  base : Nat
  len : Nat
  usable : Bool
deriving DecidableEq

/-- Rust `Range::step_by`: the addresses `a, a + s, a + 2s, …` strictly
below `b`. -/
def step_by (a b s : Nat) : List Nat :=
  (List.range ((b - a + s - 1) / s)).map (fun i => a + s * i)

/-- Rust `BootInfoFrameAllocator::usable_frames` (memory.rs 78-88):
usable regions, each expanded to its 4096-stepped address range, each
address mapped to the 4096-aligned start of its containing frame. -/
def usable_frames (memmap : List MemRegion) : List Nat :=
  (memmap.filter (fun r => r.usable)).flatMap
    (fun r => (step_by r.base (r.base + r.len) 4096).map (fun addr => 4096 * (addr / 4096)))

structure FrameAllocState where
  memmap : List MemRegion
  next : Nat
deriving DecidableEq

/-- Rust `allocate_frame` (memory.rs 92-96): take the `next`-th usable
frame (`None` past the end) and increment the cursor unconditionally. -/
def allocate_frame (st : FrameAllocState) : Option Nat × FrameAllocState :=
  ((usable_frames st.memmap)[st.next]?, ⟨st.memmap, st.next + 1⟩)

/-- Run `n` successive `allocate_frame` calls, collecting the results. -/
def run_frame_allocs (st : FrameAllocState) : Nat → List (Option Nat) × FrameAllocState
  | 0 => ([], st)
  | n + 1 =>
    ((run_frame_allocs (allocate_frame st).2 n).1.cons (allocate_frame st).1,
     (run_frame_allocs (allocate_frame st).2 n).2)

/-- The memory map of the claim's scenario: one usable region at 0x1000
of length 0x3000. -/
def demo_memmap : List MemRegion := [⟨0x1000, 0x3000, true⟩]

/-! ### Theorems about the frame allocator -/

lemma run_frame_allocs_memmap : ∀ (n : Nat) (st : FrameAllocState),
    (run_frame_allocs st n).2.memmap = st.memmap := by
  intro n
  induction n with
  | zero => intro st; rfl
  | succ m ih =>
    intro st
    simp only [run_frame_allocs]
    exact (ih _).trans rfl

lemma run_frame_allocs_formula (mm : List MemRegion) :
    ∀ (n k : Nat),
      (run_frame_allocs ⟨mm, k⟩ n).1
        = (List.range n).map (fun i => (usable_frames mm)[k + i]?) ∧
      (run_frame_allocs ⟨mm, k⟩ n).2.next = k + n := by
  intro n
  induction n with
  | zero => intro k; exact ⟨rfl, rfl⟩
  | succ m ih =>
    intro k
    have hstep : allocate_frame ⟨mm, k⟩ = ((usable_frames mm)[k]?, ⟨mm, k + 1⟩) := rfl
    constructor
    · simp only [run_frame_allocs, hstep, (ih (k + 1)).1]
      rw [List.range_succ_eq_map]
      simp only [List.map_cons, List.map_map, Function.comp_def, List.cons.injEq]
      refine ⟨by rw [Nat.add_zero], ?_⟩
      apply List.map_congr_left
      intro i _
      congr 1
      omega
    · simp only [run_frame_allocs, hstep, (ih (k + 1)).2]
      omega

/-- C6: over the memory map whose sole usable region starts at 0x1000
with length 0x3000, the first three `allocate_frame` calls return exactly
the frames 0x1000, 0x2000, 0x3000 and every later call returns `None`;
in general the cursor increases by one on every call (so it is strictly
monotonically increasing across a run), each successful call returns the
element of the fixed usable-frame sequence at the cursor's position, and
when the boot memory map's usable-frame sequence is strictly increasing
(as the boot protocol guarantees: sorted, non-overlapping usable regions)
any two successful allocations in a run return strictly increasing frame
addresses — no frame is ever returned twice. -/
theorem frame_allocator_spec :
    (usable_frames demo_memmap = [0x1000, 0x2000, 0x3000]) ∧
    ((run_frame_allocs ⟨demo_memmap, 0⟩ 3).1
      = [some 0x1000, some 0x2000, some 0x3000]) ∧
    (∀ j, (allocate_frame (run_frame_allocs ⟨demo_memmap, 0⟩ (3 + j)).2).1 = none) ∧
    (∀ mm k n, (run_frame_allocs ⟨mm, k⟩ n).2.next = k + n) ∧
    (∀ mm k, (allocate_frame ⟨mm, k⟩).1 = (usable_frames mm)[k]? ∧
      (allocate_frame ⟨mm, k⟩).2.next = k + 1) ∧
    (∀ mm n, (usable_frames mm).Pairwise (· < ·) →
      ∀ (i j a b : Nat), i < j →
        ((run_frame_allocs ⟨mm, 0⟩ n).1)[i]? = some (some a) →
        ((run_frame_allocs ⟨mm, 0⟩ n).1)[j]? = some (some b) →
        a < b) := by
  refine ⟨by decide, by decide, ?_, ?_, fun mm k => ⟨rfl, rfl⟩, ?_⟩
  · intro j
    have hnext : (run_frame_allocs ⟨demo_memmap, 0⟩ (3 + j)).2.next = 0 + (3 + j) :=
      (run_frame_allocs_formula demo_memmap (3 + j) 0).2
    have hmm : (run_frame_allocs ⟨demo_memmap, 0⟩ (3 + j)).2.memmap = demo_memmap :=
      run_frame_allocs_memmap (3 + j) ⟨demo_memmap, 0⟩
    unfold allocate_frame
    rw [hmm, hnext]
    apply List.getElem?_eq_none
    rw [show usable_frames demo_memmap = [0x1000, 0x2000, 0x3000] from by decide]
    simp
  · intro mm k n
    exact (run_frame_allocs_formula mm n k).2
  · intro mm n hsort i j a b hij ha hb
    have hres := (run_frame_allocs_formula mm n 0).1
    rw [hres] at ha hb
    have hlen : ((List.range n).map (fun i => (usable_frames mm)[0 + i]?)).length = n := by
      simp
    obtain ⟨hi, hai⟩ := List.getElem?_eq_some_iff.mp ha
    obtain ⟨hj, hbj⟩ := List.getElem?_eq_some_iff.mp hb
    rw [hlen] at hi hj
    have hai2 : (usable_frames mm)[0 + i]? = some a := by
      have := hai
      simpa using this
    have hbj2 : (usable_frames mm)[0 + j]? = some b := by
      have := hbj
      simpa using this
    simp only [Nat.zero_add] at hai2 hbj2
    obtain ⟨hilen, hival⟩ := List.getElem?_eq_some_iff.mp hai2
    obtain ⟨hjlen, hjval⟩ := List.getElem?_eq_some_iff.mp hbj2
    have := List.pairwise_iff_getElem.mp hsort i j hilen hjlen hij
    rw [hival, hjval] at this
    exact this

/-- Witness for C6: after five allocations from the demo map the sixth
returns `None`, and the successful first and third allocations are
strictly increasing. -/
theorem frame_allocator_spec_witness :
    (allocate_frame (run_frame_allocs ⟨demo_memmap, 0⟩ (3 + 2)).2).1 = none ∧
    (0x1000 : Nat) < 0x3000 := by
  refine ⟨frame_allocator_spec.2.2.1 2, ?_⟩
  exact frame_allocator_spec.2.2.2.2.2 demo_memmap 3 (by decide) 0 2 0x1000 0x3000
    (by decide) (by decide) (by decide)

/-! ### Theorems about interrupt-line allocation -/

lemma get_irq_eq_testBit (s irq : Nat) : get_irq s irq = ! s.testBit irq := by
  unfold get_irq
  rw [Nat.one_shiftLeft, Nat.and_two_pow]
  cases h : s.testBit irq
  · simp [h]
  · have hp : (2 : Nat) ^ irq ≠ 0 := Nat.pos_iff_ne_zero.mp (Nat.pos_pow_of_pos irq (by omega))
    simp [h, hp]

lemma set_irq_testBit_self (s c : Nat) : (set_irq s c).testBit c = true := by
  unfold set_irq
  rw [Nat.one_shiftLeft]
  simp [Nat.testBit_or, Nat.testBit_two_pow]

lemma set_irq_testBit_mono (s c d : Nat) (h : s.testBit d = true) :
    (set_irq s c).testBit d = true := by
  unfold set_irq
  simp [Nat.testBit_or, h]

lemma alloc_scan_some (b : Nat) :
    ∀ (cs : List Nat) (c b2 : Nat), alloc_scan b cs = some (c, b2) →
      c ∈ cs ∧ get_irq b c = true ∧ b2 = set_irq b c := by
  intro cs
  induction cs with
  | nil => intro c b2 h; simp [alloc_scan] at h
  | cons x rest ih =>
    intro c b2 h
    by_cases hx : get_irq b x = true
    · simp only [alloc_scan, if_pos hx, Option.some_inj, Prod.mk.injEq] at h
      obtain ⟨rfl, rfl⟩ := h
      exact ⟨by simp, hx, rfl⟩
    · simp only [alloc_scan, if_neg hx] at h
      obtain ⟨hmem, hfree, hb2⟩ := ih c b2 h
      exact ⟨by simp [hmem], hfree, hb2⟩

lemma alloc_scan_first (b : Nat) :
    ∀ cs : List Nat, cs.Pairwise (· < ·) →
      ∀ (c b2 : Nat), alloc_scan b cs = some (c, b2) →
        ∀ d ∈ cs, d < c → get_irq b d = false := by
  intro cs
  induction cs with
  | nil => intro _ c b2 h; simp [alloc_scan] at h
  | cons x rest ih =>
    intro hsort c b2 h d hd hdc
    rw [List.pairwise_cons] at hsort
    obtain ⟨hx_lt, hsort_rest⟩ := hsort
    by_cases hx : get_irq b x = true
    · simp only [alloc_scan, if_pos hx, Option.some_inj, Prod.mk.injEq] at h
      obtain ⟨rfl, _⟩ := h
      rcases List.mem_cons.mp hd with rfl | hdr
      · exact absurd hdc (lt_irrefl d)
      · exact absurd hdc (by have := hx_lt d hdr; omega)
    · simp only [alloc_scan, if_neg hx] at h
      rcases List.mem_cons.mp hd with rfl | hdr
      · cases hgb : get_irq b d
        · rfl
        · exact absurd hgb hx
      · exact ih hsort_rest c b2 h d hdr hdc

lemma alloc_scan_none_iff (b : Nat) :
    ∀ cs : List Nat, alloc_scan b cs = none ↔ ∀ c ∈ cs, get_irq b c = false := by
  intro cs
  induction cs with
  | nil => simp [alloc_scan]
  | cons x rest ih =>
    cases hx : get_irq b x with
    | true => simp [alloc_scan, hx]
    | false => simp [alloc_scan, hx, ih]

lemma valid_irqs_sorted (config : Nat) : (valid_irqs config).Pairwise (· < ·) :=
  List.Pairwise.filter _ (List.pairwise_lt_range 32)

lemma run_assigns_spec (cfgs : List Nat) :
    ∀ b : Nat,
      ((run_assigns b cfgs).1.filterMap id).Nodup ∧
      (∀ a ∈ (run_assigns b cfgs).1.filterMap id, b.testBit a = false) ∧
      (∀ d : Nat, b.testBit d = true → (run_assigns b cfgs).2.testBit d = true) := by
  induction cfgs with
  | nil =>
    intro b
    refine ⟨by simp [run_assigns], by simp [run_assigns], fun d h => ?_⟩
    simpa [run_assigns] using h
  | cons cfg rest ih =>
    intro b
    cases hcall : assign_timer_irq b cfg with
    | none =>
      obtain ⟨h1, h2, h3⟩ := ih b
      have hrun1 : (run_assigns b (cfg :: rest)).1 = none :: (run_assigns b rest).1 := by
        simp only [run_assigns, hcall]
      have hrun2 : (run_assigns b (cfg :: rest)).2 = (run_assigns b rest).2 := by
        simp only [run_assigns, hcall]
      refine ⟨?_, ?_, ?_⟩
      · rw [hrun1]; simpa [List.filterMap_cons] using h1
      · rw [hrun1]; simpa [List.filterMap_cons] using h2
      · intro d hd; rw [hrun2]; exact h3 d hd
    | some p =>
      obtain ⟨c, b1⟩ := p
      obtain ⟨hmem, hfree, hb1⟩ := alloc_scan_some b (valid_irqs cfg) c b1 hcall
      have hfree2 : b.testBit c = false := by
        rw [get_irq_eq_testBit] at hfree
        cases h : b.testBit c
        · rfl
        · rw [h] at hfree; simp at hfree
      obtain ⟨h1, h2, h3⟩ := ih b1
      have hrun1 : (run_assigns b (cfg :: rest)).1 = some c :: (run_assigns b1 rest).1 := by
        simp only [run_assigns, hcall]
      have hrun2 : (run_assigns b (cfg :: rest)).2 = (run_assigns b1 rest).2 := by
        simp only [run_assigns, hcall]
      have hb1c : b1.testBit c = true := by rw [hb1]; exact set_irq_testBit_self b c
      have hmono : ∀ d, b.testBit d = true → b1.testBit d = true := by
        intro d hd; rw [hb1]; exact set_irq_testBit_mono b c d hd
      refine ⟨?_, ?_, ?_⟩
      · rw [hrun1]
        simp only [List.filterMap_cons, id_eq]
        rw [List.nodup_cons]
        refine ⟨fun hc => ?_, h1⟩
        have := h2 c hc
        rw [hb1c] at this
        simp at this
      · rw [hrun1]
        simp only [List.filterMap_cons, id_eq]
        intro a ha
        rcases List.mem_cons.mp ha with rfl | ha2
        · exact hfree2
        · cases hba : b.testBit a
          · rfl
          · have hm := hmono a hba
            have h2a := h2 a ha2
            rw [hm] at h2a
            simp at h2a
      · intro d hd
        rw [hrun2]
        exact h3 d (hmono d hd)

/-- C1: interrupt-line allocation.  Every `assign_timer_irq` call scans
its candidate lines (the `int_route_cap` bits, collected in ascending
numeric order) and claims the first free line: a returned line is a free
candidate, all smaller candidates were claimed, and the bitmap gains
exactly that line's bit; the call fails — the source panics — precisely
when no candidate is free.  Across any sequence of calls started from the
boot bitmap (bits 0, 1, 2, 8 pre-set), no line is returned twice, and the
lines 0, 1, 2 and 8 are never returned. -/
theorem assign_timer_irq_exclusive :
    (∀ b cfg c b2, assign_timer_irq b cfg = some (c, b2) →
      c ∈ valid_irqs cfg ∧ get_irq b c = true ∧ b2 = set_irq b c ∧
      ∀ d ∈ valid_irqs cfg, d < c → get_irq b d = false) ∧
    (∀ b cfg, assign_timer_irq b cfg = none ↔ ∀ c ∈ valid_irqs cfg, get_irq b c = false) ∧
    (∀ cfgs : List Nat,
      ((run_assigns free_interrupt_sources_boot cfgs).1.filterMap id).Nodup ∧
      ∀ a ∈ (run_assigns free_interrupt_sources_boot cfgs).1.filterMap id,
        a ≠ 0 ∧ a ≠ 1 ∧ a ≠ 2 ∧ a ≠ 8) := by
  refine ⟨?_, ?_, ?_⟩
  · intro b cfg c b2 h
    obtain ⟨hmem, hfree, hb2⟩ := alloc_scan_some b (valid_irqs cfg) c b2 h
    exact ⟨hmem, hfree, hb2,
      alloc_scan_first b (valid_irqs cfg) (valid_irqs_sorted cfg) c b2 h⟩
  · intro b cfg
    exact alloc_scan_none_iff b (valid_irqs cfg)
  · intro cfgs
    obtain ⟨h1, h2, _⟩ := run_assigns_spec cfgs free_interrupt_sources_boot
    refine ⟨h1, fun a ha => ?_⟩
    have hfa := h2 a ha
    have hb0 : free_interrupt_sources_boot.testBit 0 = true := by decide
    have hb1 : free_interrupt_sources_boot.testBit 1 = true := by decide
    have hb2 : free_interrupt_sources_boot.testBit 2 = true := by decide
    have hb8 : free_interrupt_sources_boot.testBit 8 = true := by decide
    refine ⟨fun heq => ?_, fun heq => ?_, fun heq => ?_, fun heq => ?_⟩ <;>
      rw [heq] at hfa
    · rw [hb0] at hfa; simp at hfa
    · rw [hb1] at hfa; simp at hfa
    · rw [hb2] at hfa; simp at hfa
    · rw [hb8] at hfa; simp at hfa

/-- Witness for C1: a timer whose `int_route_cap` supports lines 0..3
(configuration `15 * 2^32`), allocated against the boot bitmap, gets
line 3 — the first free candidate after the pre-claimed 0, 1, 2 — and the
bitmap becomes 271 (bit 3 now set). -/
theorem assign_timer_irq_exclusive_witness :
    3 ∈ valid_irqs (15 * 2 ^ 32) ∧
    get_irq free_interrupt_sources_boot 3 = true ∧
    (271 : Nat) = set_irq free_interrupt_sources_boot 3 ∧
    ∀ d ∈ valid_irqs (15 * 2 ^ 32), d < 3 → get_irq free_interrupt_sources_boot d = false :=
  assign_timer_irq_exclusive.1 free_interrupt_sources_boot (15 * 2 ^ 32) 3 271 (by decide)

end Blaze
